import Mathlib

/-!
# imweb: a shallow embedding of the frame loop and the declarative context

The definitions below follow `src/imweb.go`, `src/syncmap.go` and `src/main.go`.

* `syncMap` is the per-session store (`sync.Map` behind `Get`, `MustGet`, `Set`),
  embedded as a finite-support function from keys to optional values.
* `elemState.custom` has Go type `any`; the program only ever stores `nil`,
  `false` or `true` in it, so it is embedded as `Option Bool` (`none` is `nil`).
* `Context.text` and `Context.button` are the two declarative operations.
  `button` performs the unchecked type assertion `st.custom.(bool)`, which panics
  on `nil`; the embedding returns `Except Fault`.
* The body of the `for` loop in `run` is split into `pace` (lines 160-166),
  `eventsLoop` and `drain` (lines 168-193) and `frame` (lines 168-197).
* The buffered channel `queue` (capacity 100) is a list of pending events;
  a send on a full channel with no reader blocks for ever (`Fault.blocked`).
-/

namespace Imweb

/-! ## Data model -/

/-- Element identifiers: `type ID string`. -/
abbrev ID := String

/-- Ways in which the frame loop stops making progress. -/
inductive Fault where
  | panicked
  | blocked
deriving DecidableEq, Repr

/-- Incoming event: `type event struct { ID ID; Event string }`. -/
structure event where
  ID : String
  Event : String
deriving DecidableEq, Repr

/-- Stored element state: `type elemState struct { Text string; custom any }`. -/
structure elemState where
  Text : String
  custom : Option Bool
deriving DecidableEq, Repr

/-- The zero value of `elemState` (`var zero V`). -/
instance : Inhabited elemState := ⟨⟨"", none⟩⟩

/-- Outgoing command: `type command struct { ID ID; Data string; Kind string }`. -/
structure command where
  ID : String
  Data : String
  Kind : String
deriving DecidableEq, Repr

/-! ## syncmap.go -/

/-- Store `syncMap[K, V]`: the contents of the wrapped `sync.Map`. -/
structure syncMap (K V : Type) where
  m : K → Option V

/-- The store of a new session: `var elems syncMap[ID, elemState]`. -/
def syncMap.empty {K V : Type} : syncMap K V := ⟨fun _ => none⟩

/-- Lookup `Get(key) (V, bool)`: the value and whether it was found. -/
def syncMap.Get {K V : Type} (m : syncMap K V) (key : K) : Option V := m.m key

/-- Lookup `MustGet(key) V`: the zero value when the key is absent. -/
def syncMap.MustGet {K V : Type} [Inhabited V] (m : syncMap K V) (key : K) : V :=
  match m.m key with
  | none => default
  | some v => v

/-- Upsert `Set(key, value)`. -/
def syncMap.Set {K V : Type} [DecidableEq K] (m : syncMap K V) (key : K) (value : V) :
    syncMap K V :=
  ⟨fun k => if k = key then some value else m.m k⟩

/-- The element store of a session. -/
abbrev Store := syncMap ID elemState

/-! ## imweb.go: the declarative context -/

/-- Per-frame context: `type Context[S any] struct { c; commands; state; elems }`
(the connection `c` plays no part in `text` and `button`). -/
structure Context (S : Type) where
  commands : List command
  state : S
  elems : Store

/-- Markup of a text element: `fmt.Sprintf("<div id='%s'>%s</div>", id, text)`. -/
def textHtml (id : ID) (text : String) : String :=
  "<div id=\x27" ++ id ++ "\x27>" ++ text ++ "</div>"

/-- Markup of a button, with `%[1]s` replaced by the id three times. -/
def buttonHtml (id : ID) : String :=
  "<button id=\x27" ++ id ++ "\x27 onclick=\x27window.IMWEB_notify(\x7bid: \x22" ++ id
    ++ "\x22, event: \x22clicked\x22\x7d)\x27>" ++ id ++ "</button>"

/-- Declaration `func (c *Context[S]) text(id ID, text string)`. -/
def Context.text {S : Type} (c : Context S) (id : ID) (text : String) : Context S :=
  let html := textHtml id text
  match c.elems.Get id with
  | none =>
    { c with
      elems := c.elems.Set id ⟨text, none⟩
      commands := c.commands ++ [⟨id, html, "ADD"⟩] }
  | some st =>
    if st.Text ≠ text then
      { c with
        elems := c.elems.Set id ⟨text, none⟩
        commands := c.commands ++ [⟨id, html, "REPLACE"⟩] }
    else c

/-- Declaration `func (c *Context[S]) button(id ID) bool`. The assertion
`st.custom.(bool)` panics when `custom` is `nil`. -/
def Context.button {S : Type} (c : Context S) (id : ID) : Except Fault (Bool × Context S) :=
  let html := buttonHtml id
  match c.elems.Get id with
  | none =>
    .ok (false,
      { c with
        elems := c.elems.Set id ⟨id, some false⟩
        commands := c.commands ++ [⟨id, html, "ADD"⟩] })
  | some st =>
    match st.custom with
    | none => .error Fault.panicked
    | some true => .ok (true, { c with elems := c.elems.Set id { st with custom := some false } })
    | some false => .ok (false, c)

/-! ## imweb.go: draining the event queue -/

/-- Capacity of the channel: `make(chan event, 100)`. -/
def queueCap : Nat := 100

/-- Effect of one event that is not deferred (lines 182-186): a "clicked" event
sets `custom = true` on whatever `MustGet` returns and stores it back. -/
def applyEvent (elems : Store) (e : event) : Store :=
  if e.Event = "clicked" then
    let st := elems.MustGet e.ID
    elems.Set e.ID { st with custom := some true }
  else elems

/-- The loop `EVENTS_LOOP` (lines 171-190) run on the events it receives, in
receipt order: `updatedIDs` is the set of ids seen in this frame and
`notProcessedEvents` collects the deferred events. -/
def eventsLoop : List event → List ID → List event → Store → List event × Store
  | [], _, notProcessedEvents, elems => (notProcessedEvents, elems)
  | e :: rest, updatedIDs, notProcessedEvents, elems =>
    if e.ID ∈ updatedIDs then
      eventsLoop rest updatedIDs (notProcessedEvents ++ [e]) elems
    else
      eventsLoop rest (e.ID :: updatedIDs) notProcessedEvents (applyEvent elems e)

/-- Channel send `queue <- e` with nobody receiving: it succeeds while the
buffer has room and blocks for ever otherwise. -/
def send (queue : List event) (e : event) : Except Fault (List event) :=
  if queue.length < queueCap then .ok (queue ++ [e]) else .error Fault.blocked

/-- The loop `for _, e := range notProcessedEvents { queue <- e }` (lines 191-193). -/
def requeue : List event → List event → Except Fault (List event)
  | queue, [] => .ok queue
  | queue, e :: rest =>
    match send queue e with
    | .ok queue1 => requeue queue1 rest
    | .error f => .error f

/-- One drain step of a frame (lines 168-193) with no concurrent producer:
every queued event is received, then the deferred ones are sent back to the
(now empty) channel. The result is the queue left behind and the store. -/
def drain (queue : List event) (elems : Store) : Except Fault (List event × Store) :=
  let r := eventsLoop queue [] [] elems
  match requeue [] r.1 with
  | .ok queue1 => .ok (queue1, r.2)
  | .error f => .error f

/-! ## imweb.go: one frame -/

/-- What persists from one iteration of the frame loop to the next: the channel,
the store and the application state `init`. -/
structure Session (S : Type) where
  queue : List event
  elems : Store
  state : S

/-- One iteration of the loop after pacing (lines 168-206): drain, then call
`appFn` on a fresh context `Context[S]{c, nil, &init, &elems}`. The commands are
transmitted in emission order; they are returned with the next session state. -/
def frame {S : Type} (appFn : Context S → Except Fault (Context S)) (sess : Session S) :
    Except Fault (List command × Session S) :=
  match drain sess.queue sess.elems with
  | .error f => .error f
  | .ok (queue1, elems1) =>
    match appFn ⟨[], sess.state, elems1⟩ with
    | .error f => .error f
    | .ok ctx => .ok (ctx.commands, ⟨queue1, ctx.elems, ctx.state⟩)

/-- Consecutive frames, `n` of them, with nothing arriving in between: the
commands of each frame and the session after it. -/
def frames {S : Type} (appFn : Context S → Except Fault (Context S)) :
    Nat → Session S → Except Fault (List (List command × Session S))
  | 0, _ => .ok []
  | n + 1, sess =>
    match frame appFn sess with
    | .error f => .error f
    | .ok (cmds, sess1) =>
      match frames appFn n sess1 with
      | .error f => .error f
      | .ok out => .ok ((cmds, sess1) :: out)

/-! ## imweb.go: arbitrary render callbacks and event arrivals -/

/-- One call made by a render callback. Any execution of a callback is a
finite sequence of such calls. -/
inductive Decl where
  | text (id : ID) (content : String)
  | button (id : ID)
deriving DecidableEq, Repr

/-- Executes one call on the context; the result of `button` is dropped. -/
def Decl.run {S : Type} (d : Decl) (c : Context S) : Except Fault (Context S) :=
  match d with
  | .text id content => .ok (c.text id content)
  | .button id =>
    match c.button id with
    | .ok r => .ok r.2
    | .error f => .error f

/-- A render callback that makes the given calls in order. -/
def render {S : Type} : List Decl → Context S → Except Fault (Context S)
  | [], c => .ok c
  | d :: ds, c =>
    match d.run c with
    | .ok c1 => render ds c1
    | .error f => .error f

/-- What one iteration of the frame loop is fed: the events its `EVENTS_LOOP`
receives (queued, re-queued or arriving while it runs) and the calls its render
callback makes. -/
structure FrameInput where
  events : List event
  decls : List Decl

/-- Store after the `EVENTS_LOOP` of a frame has received `events`. -/
def drained (events : List event) (elems : Store) : Store :=
  (eventsLoop events [] [] elems).2

/-- One frame on the store alone: the commands it emits and the store after it. -/
def stepFrame (f : FrameInput) (elems : Store) : Except Fault (List command × Store) :=
  match render f.decls (⟨[], (), drained f.events elems⟩ : Context Unit) with
  | .ok ctx => .ok (ctx.commands, ctx.elems)
  | .error e => .error e

/-- A session: the concatenated stream of commands emitted by the frames, and
the final store. -/
def session : List FrameInput → Store → Except Fault (List command × Store)
  | [], elems => .ok ([], elems)
  | f :: fs, elems =>
    match stepFrame f elems with
    | .error e => .error e
    | .ok (cmds, elems1) =>
      match session fs elems1 with
      | .error e => .error e
      | .ok (more, elems2) => .ok (cmds ++ more, elems2)

/-- Every store the calls of a render callback are executed on, in order, up
to a panic. -/
def renderStores : List Decl → Store → List Store
  | [], elems => [elems]
  | d :: ds, elems =>
    match d.run (⟨[], (), elems⟩ : Context Unit) with
    | .ok c1 => elems :: renderStores ds c1.elems
    | .error _ => [elems]

/-- Store after the calls of a render callback, when none of them panics. -/
def renderEnd : List Decl → Store → Option Store
  | [], elems => some elems
  | d :: ds, elems =>
    match d.run (⟨[], (), elems⟩ : Context Unit) with
    | .ok c1 => renderEnd ds c1.elems
    | .error _ => none

/-- Every store reached in a session, frame by frame: after each drain and
after each call of the render callback, up to a panic. -/
def sessionStores : List FrameInput → Store → List Store
  | [], elems => [elems]
  | f :: fs, elems =>
    match renderEnd f.decls (drained f.events elems) with
    | some elems1 => elems :: renderStores f.decls (drained f.events elems) ++ sessionStores fs elems1
    | none => elems :: renderStores f.decls (drained f.events elems)

/-! ## main.go: the example application -/

/-- Go `int` arithmetic on a 64-bit platform wraps around. -/
def wrapInt64 (x : Int) : Int :=
  (x + 9223372036854775808) % 18446744073709551616 - 9223372036854775808

/-- Application state: `type state struct { count int }`. -/
structure state where
  count : Int
deriving DecidableEq, Repr

/-- Render callback `func app(ctx *Context[state])`; `fmt.Sprint` of an `int`
is its decimal representation. -/
def app (ctx : Context state) : Except Fault (Context state) :=
  let ctx1 := ctx.text "count-text" (toString ctx.state.count)
  match ctx1.button "Increment" with
  | .error f => .error f
  | .ok (inc, ctx2) =>
    let ctx3 : Context state :=
      if inc then { ctx2 with state := ⟨wrapInt64 (ctx2.state.count + 1)⟩ } else ctx2
    match ctx3.button "Decrement" with
    | .error f => .error f
    | .ok (dec, ctx4) =>
      .ok (if dec then { ctx4 with state := ⟨wrapInt64 (ctx4.state.count - 1)⟩ } else ctx4)

/-! ## imweb.go: frame pacing -/

/-- The constant `refreshInterval = 1000 / fps * time.Millisecond` with
`fps = 20`, in nanoseconds. -/
def refreshInterval : Int := 1000 / 20 * 1000000

/-- Difference `now.Sub(last)` of two clock readings in nanoseconds: a
`time.Duration`, saturating at the ends of the `int64` range. -/
def timeSub (now last : Int) : Int :=
  if now - last > 9223372036854775807 then 9223372036854775807
  else if now - last < -9223372036854775808 then -9223372036854775808
  else now - last

/-- Clock after `time.Sleep(d)`: exactly `d` later, at once when `d ≤ 0`. -/
def sleep (clock d : Int) : Int := if d ≤ 0 then clock else clock + d

/-- The pacing step (lines 160-166), entered when the clock reads `clock`
with the variable `last` as given. Returns the clock at the end of the step,
which is the start of the frame, and the new value of `last`. -/
def pace (clock last : Int) : Int × Int :=
  let now := clock
  let elapsed := timeSub now last
  if elapsed < refreshInterval then
    (sleep clock (wrapInt64 (refreshInterval - elapsed)), now)
  else (clock, now)

/-- Start timestamps of consecutive frames; `work` lists how long the drain,
render and transmit work of each frame takes. -/
def frameStarts : List Nat → Int → Int → List Int
  | [], _, _ => []
  | w :: work, clock, last =>
    let p := pace clock last
    p.1 :: frameStarts work (p.1 + w) p.2

/-- The loop entered right after `last := time.Now()` read `t0`. -/
def loopStarts (t0 : Int) (work : List Nat) : List Int := frameStarts work t0 t0

/-! ## The drain rule read by position in the queue -/

/-- Whether the id of the event `p.2`, which stands at position `p.1` of `L`,
also occurs at an earlier position of `L`. -/
def occursEarlier (L : List event) (p : Nat × event) : Bool :=
  (L.take p.1).any (fun x => decide (x.ID = p.2.ID))

/-- The events of `L` whose id does not occur earlier in `L`, in order. -/
def appliedOf (L : List event) : List event :=
  (L.enum.filter (fun p => !occursEarlier L p)).map Prod.snd

/-- The events of `L` whose id does occur earlier in `L`, in order. -/
def deferredOf (L : List event) : List event :=
  (L.enum.filter (fun p => occursEarlier L p)).map Prod.snd

/-! ## Observing one button -/

/-- What a session does to one button: a drain step that receives the given
events, or a call `button(id)` by the render callback. -/
inductive Act where
  | drain (events : List event)
  | call
deriving DecidableEq, Repr

/-- Runs the acts in order on the store of the context and collects what the
calls `button(id)` return. -/
def runCalls (id : ID) : List Act → Context Unit → Except Fault (List Bool × Context Unit)
  | [], c => .ok ([], c)
  | .drain events :: rest, c => runCalls id rest { c with elems := drained events c.elems }
  | .call :: rest, c =>
    match c.button id with
    | .error f => .error f
    | .ok (b, c1) =>
      match runCalls id rest c1 with
      | .error f => .error f
      | .ok (bs, c2) => .ok (b :: bs, c2)

/-- A render callback that calls `button(id)` once and keeps what it returned
as the application state. -/
def probe (id : ID) (c : Context Bool) : Except Fault (Context Bool) :=
  match c.button id with
  | .error f => .error f
  | .ok (b, c1) => .ok { c1 with state := b }

/-- The type assertion `st.custom.(bool)` succeeds on whatever the store holds
for `id`: the entry, if there is one, has a boolean in `custom`. -/
def customIsBool (id : ID) (elems : Store) : Prop :=
  ∀ st, elems.Get id = some st → ∃ b : Bool, st.custom = some b

/-! ## Store lemmas -/

theorem syncMap.Get_Set_same {K V : Type} [DecidableEq K] (m : syncMap K V) (k : K) (v : V) :
    (m.Set k v).Get k = some v := by
  simp [syncMap.Get, syncMap.Set]

theorem syncMap.Get_Set_other {K V : Type} [DecidableEq K] (m : syncMap K V) (k j : K) (v : V)
    (h : j ≠ k) : (m.Set k v).Get j = m.Get j := by
  simp [syncMap.Get, syncMap.Set, h]

theorem syncMap.MustGet_of_Get {K V : Type} [Inhabited V] (m : syncMap K V) (k : K) (v : V)
    (h : m.Get k = some v) : m.MustGet k = v := by
  simp only [syncMap.Get] at h
  simp [syncMap.MustGet, h]

/-! ## The declarative context -/

theorem text_absent {S : Type} (c : Context S) (id : ID) (content : String)
    (h : c.elems.Get id = none) :
    c.text id content =
      { c with
        elems := c.elems.Set id ⟨content, none⟩
        commands := c.commands ++ [⟨id, textHtml id content, "ADD"⟩] } := by
  simp [Context.text, h]

theorem text_changed {S : Type} (c : Context S) (id : ID) (content : String) (st : elemState)
    (h : c.elems.Get id = some st) (hne : st.Text ≠ content) :
    c.text id content =
      { c with
        elems := c.elems.Set id ⟨content, none⟩
        commands := c.commands ++ [⟨id, textHtml id content, "REPLACE"⟩] } := by
  simp [Context.text, h, hne]

theorem text_same {S : Type} (c : Context S) (id : ID) (content : String) (st : elemState)
    (h : c.elems.Get id = some st) (heq : st.Text = content) :
    c.text id content = c := by
  simp [Context.text, h, heq]

theorem drain_nil (elems : Store) : drain [] elems = .ok ([], elems) := rfl

/-- A frame with an empty queue whose callback declares an unchanged text
emits nothing and leaves the session as it was. -/
theorem frame_text_same {S : Type} (sess : Session S) (id : ID) (content : String)
    (st : elemState) (hq : sess.queue = []) (h : sess.elems.Get id = some st)
    (heq : st.Text = content) :
    frame (fun c => .ok (c.text id content)) sess = .ok ([], sess) := by
  obtain ⟨q, e, x⟩ := sess
  simp only at hq h
  subst hq
  have ht := text_same (⟨[], x, e⟩ : Context S) id content st h heq
  simp only [frame, drain_nil, ht]

theorem frames_text_same {S : Type} (n : Nat) (sess : Session S) (id : ID) (content : String)
    (st : elemState) (hq : sess.queue = []) (h : sess.elems.Get id = some st)
    (heq : st.Text = content) :
    frames (fun c => .ok (c.text id content)) n sess = .ok (List.replicate n ([], sess)) := by
  induction n with
  | zero => rfl
  | succ n ih =>
    simp only [frames, frame_text_same sess id content st hq h heq, ih, List.replicate_succ]

/-! ## Claims about `text` -/

/-- C1 (change detection): on a store that does not hold `id`, a frame declaring
`text(id, a)` emits exactly one command, `ADD` with the markup of `a`; the next
frame declaring `text(id, b)` with `a ≠ b` emits exactly one command, `REPLACE`
with the markup of `b`; afterwards the store maps `id` to the text `b`. -/
theorem text_change_detection {S : Type} (x : S) (elems : Store) (id : ID) (a b : String)
    (habs : elems.Get id = none) (hab : a ≠ b) :
    ∃ sess1 sess2 : Session S,
      frame (fun c => .ok (c.text id a)) ⟨[], elems, x⟩
        = .ok ([⟨id, textHtml id a, "ADD"⟩], sess1) ∧
      frame (fun c => .ok (c.text id b)) sess1
        = .ok ([⟨id, textHtml id b, "REPLACE"⟩], sess2) ∧
      sess2.elems.Get id = some ⟨b, none⟩ := by
  refine ⟨⟨[], elems.Set id ⟨a, none⟩, x⟩,
    ⟨[], (elems.Set id ⟨a, none⟩).Set id ⟨b, none⟩, x⟩, ?_, ?_, ?_⟩
  · have h1 := text_absent (⟨[], x, elems⟩ : Context S) id a habs
    simp only [frame, drain_nil, h1, List.nil_append]
  · have h2 := text_changed (⟨[], x, elems.Set id ⟨a, none⟩⟩ : Context S) id b ⟨a, none⟩
      (syncMap.Get_Set_same elems id ⟨a, none⟩) hab
    simp only [frame, drain_nil, h2, List.nil_append]
  · exact syncMap.Get_Set_same _ id _

/-- C1 at the counter label of the example application: "0" then "1". -/
theorem text_change_detection_witness :
    (syncMap.empty : Store).Get "count-text" = none ∧ "0" ≠ "1" ∧
    ∃ sess1 sess2 : Session Unit,
      frame (fun c => .ok (c.text "count-text" "0")) ⟨[], syncMap.empty, ()⟩
        = .ok ([⟨"count-text", textHtml "count-text" "0", "ADD"⟩], sess1) ∧
      frame (fun c => .ok (c.text "count-text" "1")) sess1
        = .ok ([⟨"count-text", textHtml "count-text" "1", "REPLACE"⟩], sess2) ∧
      sess2.elems.Get "count-text" = some ⟨"1", none⟩ :=
  ⟨rfl, by decide,
    text_change_detection () syncMap.empty "count-text" "0" "1" rfl (by decide)⟩

/-- C2 (idempotence): on a store that does not hold `id`, `N ≥ 1` consecutive
frames that each declare `text(id, content)` emit one `ADD` in frame 1 and no
command in frames 2..N, and the session (store included) after each of the
frames 2..N is the one left by frame 1. -/
theorem text_idempotent {S : Type} (x : S) (elems : Store) (id : ID) (content : String)
    (N : Nat) (habs : elems.Get id = none) (hN : 1 ≤ N) :
    ∃ sess1 : Session S,
      sess1.elems.Get id = some ⟨content, none⟩ ∧
      frames (fun c => .ok (c.text id content)) N ⟨[], elems, x⟩
        = .ok (([⟨id, textHtml id content, "ADD"⟩], sess1)
            :: List.replicate (N - 1) ([], sess1)) := by
  obtain ⟨n, rfl⟩ : ∃ n, N = n + 1 := ⟨N - 1, by omega⟩
  refine ⟨⟨[], elems.Set id ⟨content, none⟩, x⟩, syncMap.Get_Set_same _ _ _, ?_⟩
  have h1 := text_absent (⟨[], x, elems⟩ : Context S) id content habs
  have hrest := frames_text_same n (⟨[], elems.Set id ⟨content, none⟩, x⟩ : Session S) id
    content ⟨content, none⟩ rfl (syncMap.Get_Set_same _ _ _) rfl
  simp only [frames, frame, drain_nil, h1, List.nil_append, Nat.add_sub_cancel]
  rw [hrest]

/-- C2 on three frames of an empty store. -/
theorem text_idempotent_witness :
    (syncMap.empty : Store).Get "now" = none ∧ 1 ≤ 3 ∧
    ∃ sess1 : Session Unit,
      sess1.elems.Get "now" = some ⟨"noon", none⟩ ∧
      frames (fun c => .ok (c.text "now" "noon")) 3 ⟨[], syncMap.empty, ()⟩
        = .ok (([⟨"now", textHtml "now" "noon", "ADD"⟩], sess1)
            :: List.replicate (3 - 1) ([], sess1)) :=
  ⟨rfl, by decide, text_idempotent () syncMap.empty "now" "noon" 3 rfl (by decide)⟩

/-! ## The drain step -/

theorem occursEarlier_at_length (pre rest : List event) (e : event) :
    occursEarlier (pre ++ e :: rest) (pre.length, e) = true ↔ ∃ x ∈ pre, x.ID = e.ID := by
  simp [occursEarlier]

/-- The loop `EVENTS_LOOP`, started after the events `pre` were received, defers
the events whose id occurs earlier and applies the others in order. -/
theorem eventsLoop_spec (L : List event) :
    ∀ (pre : List event) (updatedIDs : List ID) (notProcessed : List event) (elems : Store),
      (∀ x, x ∈ updatedIDs ↔ ∃ e ∈ pre, e.ID = x) →
      eventsLoop L updatedIDs notProcessed elems =
        (notProcessed ++
          ((L.enumFrom pre.length).filter (fun p => occursEarlier (pre ++ L) p)).map Prod.snd,
         (((L.enumFrom pre.length).filter (fun p => !occursEarlier (pre ++ L) p)).map
            Prod.snd).foldl applyEvent elems) := by
  induction L with
  | nil => intro pre upd np elems _; simp [eventsLoop]
  | cons e rest ih =>
    intro pre upd np elems h
    have hassoc : (pre ++ [e]) ++ rest = pre ++ e :: rest := by simp
    have hlen : (pre ++ [e]).length = pre.length + 1 := by simp
    by_cases hmem : e.ID ∈ upd
    · have hocc : occursEarlier (pre ++ e :: rest) (pre.length, e) = true :=
        (occursEarlier_at_length pre rest e).2 ((h e.ID).1 hmem)
      have h1 : ∀ x, x ∈ upd ↔ ∃ y ∈ pre ++ [e], y.ID = x := by
        intro x
        constructor
        · intro hx
          obtain ⟨y, hy, hyx⟩ := (h x).1 hx
          exact ⟨y, List.mem_append_left _ hy, hyx⟩
        · rintro ⟨y, hy, hyx⟩
          rcases List.mem_append.1 hy with hy | hy
          · exact (h x).2 ⟨y, hy, hyx⟩
          · rw [List.mem_singleton] at hy
            subst hy
            exact hyx ▸ hmem
      have := ih (pre ++ [e]) upd (np ++ [e]) elems h1
      rw [hassoc, hlen] at this
      simp only [eventsLoop, hmem, if_true, this, List.enumFrom_cons, List.filter_cons, hocc,
        List.map_cons, Bool.not_true, List.append_assoc, List.singleton_append]
      simp
    · have hocc : occursEarlier (pre ++ e :: rest) (pre.length, e) = false := by
        rw [Bool.eq_false_iff]
        intro hc
        exact hmem ((h e.ID).2 ((occursEarlier_at_length pre rest e).1 hc))
      have h1 : ∀ x, x ∈ e.ID :: upd ↔ ∃ y ∈ pre ++ [e], y.ID = x := by
        intro x
        constructor
        · intro hx
          rcases List.mem_cons.1 hx with hx | hx
          · exact ⟨e, by simp, hx.symm⟩
          · obtain ⟨y, hy, hyx⟩ := (h x).1 hx
            exact ⟨y, List.mem_append_left _ hy, hyx⟩
        · rintro ⟨y, hy, hyx⟩
          rcases List.mem_append.1 hy with hy | hy
          · exact List.mem_cons_of_mem _ ((h x).2 ⟨y, hy, hyx⟩)
          · rw [List.mem_singleton] at hy
            subst hy
            exact hyx ▸ List.mem_cons_self _ _
      have := ih (pre ++ [e]) (e.ID :: upd) np (applyEvent elems e) h1
      rw [hassoc, hlen] at this
      simp only [eventsLoop, hmem, if_false, this, List.enumFrom_cons, List.filter_cons, hocc,
        List.map_cons, Bool.not_false, List.foldl_cons]
      simp

theorem eventsLoop_eq (L : List event) (elems : Store) :
    eventsLoop L [] [] elems = (deferredOf L, (appliedOf L).foldl applyEvent elems) := by
  have := eventsLoop_spec L [] [] [] elems (by simp)
  simpa [deferredOf, appliedOf, List.enum] using this

theorem requeue_ok (notProcessed : List event) :
    ∀ queue : List event, queue.length + notProcessed.length ≤ queueCap →
      requeue queue notProcessed = .ok (queue ++ notProcessed) := by
  induction notProcessed with
  | nil => intro queue _; simp [requeue]
  | cons e rest ih =>
    intro queue h
    have hlt : queue.length < queueCap := by simp at h; omega
    have h2 : (queue ++ [e]).length + rest.length ≤ queueCap := by simp at h ⊢; omega
    simp [requeue, send, hlt, ih (queue ++ [e]) h2]

theorem deferredOf_sublist (L : List event) : (deferredOf L).Sublist L := by
  have h : ((L.enum.filter fun p => occursEarlier L p).map Prod.snd).Sublist
      (L.enum.map Prod.snd) := (List.filter_sublist _).map _
  rwa [List.enum_map_snd] at h

theorem applied_deferred_perm (L : List event) : (appliedOf L ++ deferredOf L).Perm L := by
  have h := (List.filter_append_perm (fun p => occursEarlier L p) L.enum).map Prod.snd
  rw [List.enum_map_snd, List.map_append] at h
  exact (List.perm_append_comm).trans h

theorem drain_eq (L : List event) (elems : Store) (h : L.length ≤ queueCap) :
    drain L elems = .ok (deferredOf L, (appliedOf L).foldl applyEvent elems) := by
  have hlen : (deferredOf L).length ≤ queueCap := (deferredOf_sublist L).length_le.trans h
  have hr := requeue_ok (deferredOf L) [] (by simpa using hlen)
  simp only [drain, eventsLoop_eq, hr, List.nil_append]

/-! ## The drain step seen from one id -/

theorem applyEvent_Get_other (elems : Store) (e : event) (id : ID) (h : e.ID ≠ id) :
    (applyEvent elems e).Get id = elems.Get id := by
  unfold applyEvent
  split
  · exact syncMap.Get_Set_other _ _ _ _ (Ne.symm h)
  · rfl

theorem applyEvent_Get_clicked (elems : Store) (id : ID) (st : elemState)
    (h : elems.Get id = some st) :
    (applyEvent elems ⟨id, "clicked"⟩).Get id = some { st with custom := some true } := by
  simp [applyEvent, syncMap.MustGet_of_Get elems id st h, syncMap.Get_Set_same]

theorem applyEvent_Get_not_clicked (elems : Store) (e : event) (id : ID)
    (h : e.Event ≠ "clicked") : (applyEvent elems e).Get id = elems.Get id := by
  simp [applyEvent, h]

theorem applyEvent_Get_congr (s1 s2 : Store) (e : event) (id : ID)
    (h : s1.Get id = s2.Get id) : (applyEvent s1 e).Get id = (applyEvent s2 e).Get id := by
  by_cases hid : e.ID = id
  · subst hid
    simp only [syncMap.Get] at h
    by_cases hc : e.Event = "clicked"
    · simp [applyEvent, hc, syncMap.Get, syncMap.Set, syncMap.MustGet, h]
    · simp [applyEvent, hc, syncMap.Get, h]
  · rw [applyEvent_Get_other _ _ _ hid, applyEvent_Get_other _ _ _ hid, h]

/-- An id already updated in this frame keeps its stored state. -/
theorem eventsLoop_Get_of_mem (id : ID) (L : List event) :
    ∀ (updatedIDs : List ID) (notProcessed : List event) (elems : Store),
      id ∈ updatedIDs → (eventsLoop L updatedIDs notProcessed elems).2.Get id = elems.Get id := by
  induction L with
  | nil => intro upd np elems _; rfl
  | cons e rest ih =>
    intro upd np elems hmem
    by_cases he : e.ID ∈ upd
    · simp only [eventsLoop, he, if_true]
      exact ih upd _ elems hmem
    · have hne : e.ID ≠ id := fun hc => he (hc ▸ hmem)
      simp only [eventsLoop, he, if_false]
      rw [ih (e.ID :: upd) np _ (List.mem_cons_of_mem _ hmem)]
      exact applyEvent_Get_other _ _ _ hne

/-- An id not yet updated in this frame is changed by the first event that
names it, and by no other. -/
theorem eventsLoop_Get_of_not_mem (id : ID) (L : List event) :
    ∀ (updatedIDs : List ID) (notProcessed : List event) (elems : Store),
      id ∉ updatedIDs →
      (eventsLoop L updatedIDs notProcessed elems).2.Get id =
        match L.find? (fun e => decide (e.ID = id)) with
        | none => elems.Get id
        | some e => (applyEvent elems e).Get id := by
  induction L with
  | nil => intro upd np elems _; rfl
  | cons e rest ih =>
    intro upd np elems hmem
    by_cases hid : e.ID = id
    · subst hid
      simp only [eventsLoop, hmem, if_false, List.find?_cons, decide_True]
      exact eventsLoop_Get_of_mem e.ID rest _ _ _ (List.mem_cons_self _ _)
    · have hfind : (e :: rest).find? (fun e => decide (e.ID = id))
          = rest.find? (fun e => decide (e.ID = id)) := by
        simp [List.find?_cons, hid]
      rw [hfind]
      by_cases he : e.ID ∈ upd
      · simp only [eventsLoop, he, if_true]
        exact ih upd _ elems hmem
      · have hmem2 : id ∉ e.ID :: upd := by
          intro hc
          rcases List.mem_cons.1 hc with hc | hc
          · exact hid hc.symm
          · exact hmem hc
        simp only [eventsLoop, he, if_false]
        rw [ih (e.ID :: upd) np _ hmem2]
        cases rest.find? (fun e => decide (e.ID = id)) with
        | none => exact applyEvent_Get_other _ _ _ hid
        | some e2 =>
          exact applyEvent_Get_congr _ _ e2 id (applyEvent_Get_other _ _ _ hid)

/-- The deferred events that name `id` are all the events naming `id` but the
first one (all of them when `id` was updated before). -/
theorem eventsLoop_fst_filter (id : ID) (L : List event) :
    ∀ (updatedIDs : List ID) (notProcessed : List event) (elems : Store),
      (eventsLoop L updatedIDs notProcessed elems).1.filter (fun e => decide (e.ID = id)) =
        notProcessed.filter (fun e => decide (e.ID = id)) ++
          (if id ∈ updatedIDs then L.filter (fun e => decide (e.ID = id))
           else (L.filter (fun e => decide (e.ID = id))).tail) := by
  induction L with
  | nil => intro upd np elems; simp [eventsLoop]
  | cons e rest ih =>
    intro upd np elems
    by_cases he : e.ID ∈ upd
    · simp only [eventsLoop, he, if_true]
      rw [ih upd _ elems]
      by_cases hid : e.ID = id
      · have hmem : id ∈ upd := hid ▸ he
        simp [hmem, hid, List.filter_cons]
      · by_cases hmem : id ∈ upd <;> simp [hmem, hid, List.filter_cons]
    · simp only [eventsLoop, he, if_false]
      rw [ih (e.ID :: upd) np _]
      by_cases hid : e.ID = id
      · have hmem : id ∉ upd := fun hc => he (hid ▸ hc)
        simp [hmem, hid, List.filter_cons]
      · have hid2 : ¬ id = e.ID := fun hc => hid hc.symm
        by_cases hmem : id ∈ upd <;> simp [hmem, hid, hid2, List.filter_cons]

theorem drained_Get (id : ID) (L : List event) (elems : Store) :
    (drained L elems).Get id =
      match L.find? (fun e => decide (e.ID = id)) with
      | none => elems.Get id
      | some e => (applyEvent elems e).Get id :=
  eventsLoop_Get_of_not_mem id L [] [] elems (by simp)

theorem deferredOf_filter (id : ID) (L : List event) :
    (deferredOf L).filter (fun e => decide (e.ID = id)) =
      (L.filter (fun e => decide (e.ID = id))).tail := by
  have h := eventsLoop_fst_filter id L [] [] syncMap.empty
  rw [eventsLoop_eq] at h
  simpa using h

theorem applied_fold_Get (id : ID) (L : List event) (elems : Store) :
    ((appliedOf L).foldl applyEvent elems).Get id = (drained L elems).Get id := by
  simp [drained, eventsLoop_eq]

/-! ## Claims about the drain step and `button` -/

theorem button_flag_true {S : Type} (c : Context S) (id : ID) (t : String)
    (h : c.elems.Get id = some ⟨t, some true⟩) :
    c.button id = .ok (true, { c with elems := c.elems.Set id ⟨t, some false⟩ }) := by
  simp [Context.button, h]

theorem button_flag_false {S : Type} (c : Context S) (id : ID) (t : String)
    (h : c.elems.Get id = some ⟨t, some false⟩) :
    c.button id = .ok (false, c) := by
  simp [Context.button, h]

theorem button_absent {S : Type} (c : Context S) (id : ID) (h : c.elems.Get id = none) :
    c.button id = .ok (false,
      { c with
        elems := c.elems.Set id ⟨id, some false⟩
        commands := c.commands ++ [⟨id, buttonHtml id, "ADD"⟩] }) := by
  simp [Context.button, h]

/-- A drain step whose first event for `id`, if any, is not a click leaves the
stored state of `id` alone. -/
theorem drained_Get_quiet (id : ID) (M : List event) (elems : Store)
    (h : ∀ e, M.find? (fun e => decide (e.ID = id)) = some e → e.Event ≠ "clicked") :
    (drained M elems).Get id = elems.Get id := by
  rw [drained_Get]
  cases hf : M.find? (fun e => decide (e.ID = id)) with
  | none => rfl
  | some e => exact applyEvent_Get_not_clicked _ _ _ (h e hf)

/-- A drain step whose first event for `id` is a click raises the flag. -/
theorem drained_Get_clicked (id : ID) (L : List event) (elems : Store) (st : elemState)
    (hget : elems.Get id = some st)
    (h : L.find? (fun e => decide (e.ID = id)) = some ⟨id, "clicked"⟩) :
    (drained L elems).Get id = some { st with custom := some true } := by
  rw [drained_Get, h]
  exact applyEvent_Get_clicked _ _ _ hget

/-- While no drain step applies a click to `id`, a button whose flag is down
keeps answering `false`, emits nothing and keeps its flag down. -/
theorem runCalls_quiet (id : ID) (t : String) (later : List Act) :
    ∀ c : Context Unit,
      c.elems.Get id = some ⟨t, some false⟩ →
      (∀ M, Act.drain M ∈ later →
        ∀ e, M.find? (fun e => decide (e.ID = id)) = some e → e.Event ≠ "clicked") →
      ∃ c1 : Context Unit,
        runCalls id later c = .ok (List.replicate (later.count Act.call) false, c1) ∧
        c1.commands = c.commands ∧ c1.elems.Get id = some ⟨t, some false⟩ := by
  induction later with
  | nil => intro c h _; exact ⟨c, rfl, rfl, h⟩
  | cons a rest ih =>
    intro c h hq
    have hq2 : ∀ M, Act.drain M ∈ rest →
        ∀ e, M.find? (fun e => decide (e.ID = id)) = some e → e.Event ≠ "clicked" :=
      fun M hM => hq M (List.mem_cons_of_mem _ hM)
    cases a with
    | drain M =>
      have hM := drained_Get_quiet id M c.elems (hq M (List.mem_cons_self _ _))
      obtain ⟨c1, h1, h2, h3⟩ := ih { c with elems := drained M c.elems } (by rw [← h]; exact hM) hq2
      refine ⟨c1, ?_, h2, h3⟩
      simp only [runCalls, h1]
      simp
    | call =>
      obtain ⟨c1, h1, h2, h3⟩ := ih c h hq2
      refine ⟨c1, ?_, h2, h3⟩
      simp only [runCalls, button_flag_false c id t h, h1]
      simp [List.replicate_succ]

/-- C3 (one-shot click): for a stored button whose flag is down, once a drain
step applies a "clicked" event for `id` (the first event of the drained list that
names `id` is a click), the next call `button(id)` returns `true`; every later call
returns `false` as long as no drain step applies a further click for `id`; none
of these calls appends a command, and the stored flag is down again afterwards. -/
theorem one_shot_click (id : ID) (t : String) (cmds : List command) (elems : Store)
    (L : List event) (later : List Act)
    (hdecl : elems.Get id = some ⟨t, some false⟩)
    (hclick : L.find? (fun e => decide (e.ID = id)) = some ⟨id, "clicked"⟩)
    (hlater : ∀ M, Act.drain M ∈ later →
      ∀ e, M.find? (fun e => decide (e.ID = id)) = some e → e.Event ≠ "clicked") :
    ∃ c : Context Unit,
      runCalls id (Act.drain L :: Act.call :: later) ⟨cmds, (), elems⟩
        = .ok (true :: List.replicate (later.count Act.call) false, c) ∧
      c.commands = cmds ∧ c.elems.Get id = some ⟨t, some false⟩ := by
  have hup : (drained L elems).Get id = some ⟨t, some true⟩ :=
    drained_Get_clicked id L elems ⟨t, some false⟩ hdecl hclick
  have hb := button_flag_true (⟨cmds, (), drained L elems⟩ : Context Unit) id t hup
  obtain ⟨c1, h1, h2, h3⟩ := runCalls_quiet id t later
    (⟨cmds, (), (drained L elems).Set id ⟨t, some false⟩⟩ : Context Unit)
    (syncMap.Get_Set_same _ _ _) hlater
  refine ⟨c1, ?_, h2, h3⟩
  simp only [runCalls, hb, h1]

/-- C7 (drain keeps every deferred event, in order): on a queue `L` of at most
100 events, the drain step returns; it applies, in order, exactly the events of
`L` whose id does not occur earlier in `L`, and leaves in the queue exactly the
events whose id does occur earlier, in their order in `L`; together the two
lists are a rearrangement of `L`. -/
theorem drain_keeps_deferred (L : List event) (elems : Store) (hlen : L.length ≤ 100) :
    drain L elems = .ok (deferredOf L, (appliedOf L).foldl applyEvent elems) ∧
    (appliedOf L ++ deferredOf L).Perm L ∧
    (deferredOf L).Sublist L ∧ (appliedOf L).Sublist L := by
  refine ⟨drain_eq L elems hlen, applied_deferred_perm L, deferredOf_sublist L, ?_⟩
  have h : ((L.enum.filter fun p => !occursEarlier L p).map Prod.snd).Sublist
      (L.enum.map Prod.snd) := (List.filter_sublist _).map _
  rwa [List.enum_map_snd] at h

/-- C3 on the "Increment" button of the example application: declared, clicked
once, then polled in three frames, the last two after quiet drain steps. -/
theorem one_shot_click_witness :
    ((syncMap.empty : Store).Set "Increment" ⟨"Increment", some false⟩).Get "Increment"
      = some ⟨"Increment", some false⟩ ∧
    ∃ c : Context Unit,
      runCalls "Increment"
        (Act.drain [⟨"Increment", "clicked"⟩] :: Act.call ::
          [Act.drain [], Act.call, Act.drain [⟨"Decrement", "clicked"⟩], Act.call])
        ⟨[], (), (syncMap.empty : Store).Set "Increment" ⟨"Increment", some false⟩⟩
        = .ok (true :: List.replicate
            ([Act.drain [], Act.call, Act.drain [⟨"Decrement", "clicked"⟩], Act.call].count
              Act.call) false, c) ∧
      c.commands = [] ∧ c.elems.Get "Increment" = some ⟨"Increment", some false⟩ :=
  ⟨rfl,
    one_shot_click "Increment" "Increment" []
      ((syncMap.empty : Store).Set "Increment" ⟨"Increment", some false⟩)
      [⟨"Increment", "clicked"⟩]
      [Act.drain [], Act.call, Act.drain [⟨"Decrement", "clicked"⟩], Act.call]
      rfl rfl
      (by
        intro M hM e he
        simp at hM
        rcases hM with hM | hM
        · subst hM; simp at he
        · subst hM; simp at he)⟩

/-- C7 on a queue of four events over two ids. -/
theorem drain_keeps_deferred_witness :
    ([⟨"a", "clicked"⟩, ⟨"b", "hover"⟩, ⟨"a", "clicked"⟩, ⟨"b", "clicked"⟩] : List event).length
      ≤ 100 ∧
    drain [⟨"a", "clicked"⟩, ⟨"b", "hover"⟩, ⟨"a", "clicked"⟩, ⟨"b", "clicked"⟩] syncMap.empty
      = .ok (deferredOf [⟨"a", "clicked"⟩, ⟨"b", "hover"⟩, ⟨"a", "clicked"⟩, ⟨"b", "clicked"⟩],
          (appliedOf [⟨"a", "clicked"⟩, ⟨"b", "hover"⟩, ⟨"a", "clicked"⟩, ⟨"b", "clicked"⟩]).foldl
            applyEvent syncMap.empty) ∧
    deferredOf [⟨"a", "clicked"⟩, ⟨"b", "hover"⟩, ⟨"a", "clicked"⟩, ⟨"b", "clicked"⟩]
      = [⟨"a", "clicked"⟩, ⟨"b", "clicked"⟩] ∧
    appliedOf [⟨"a", "clicked"⟩, ⟨"b", "hover"⟩, ⟨"a", "clicked"⟩, ⟨"b", "clicked"⟩]
      = [⟨"a", "clicked"⟩, ⟨"b", "hover"⟩] :=
  ⟨by decide,
    (drain_keeps_deferred
      [⟨"a", "clicked"⟩, ⟨"b", "hover"⟩, ⟨"a", "clicked"⟩, ⟨"b", "clicked"⟩]
      syncMap.empty (by decide)).1,
    by decide, by decide⟩

theorem find_eq_head_filter (p : event → Bool) (L : List event) :
    L.find? p = (L.filter p).head? := by
  induction L with
  | nil => rfl
  | cons e rest ih =>
    cases h : p e with
    | true => simp [List.find?_cons, List.filter_cons, h]
    | false =>
      simp only [List.find?_cons, List.filter_cons, h]
      exact ih

/-- A frame of the probing callback whose drain step applies a click to a
stored button: the callback sees `true`, nothing is emitted, the flag is down
again and the deferred events stay queued. -/
theorem frame_probe_clicked (id : ID) (t : String) (b : Bool) (sess : Session Bool)
    (hdecl : sess.elems.Get id = some ⟨t, some b⟩) (hlen : sess.queue.length ≤ queueCap)
    (hfirst : sess.queue.find? (fun e => decide (e.ID = id)) = some ⟨id, "clicked"⟩) :
    ∃ s1 : Session Bool,
      frame (probe id) sess = .ok ([], s1) ∧ s1.state = true ∧
      s1.queue = deferredOf sess.queue ∧ s1.elems.Get id = some ⟨t, some false⟩ := by
  obtain ⟨q, elems, x⟩ := sess
  simp only at hdecl hlen hfirst
  have hup : ((appliedOf q).foldl applyEvent elems).Get id = some ⟨t, some true⟩ := by
    rw [applied_fold_Get]
    exact drained_Get_clicked id q elems ⟨t, some b⟩ hdecl hfirst
  have hb := button_flag_true
    (⟨[], x, (appliedOf q).foldl applyEvent elems⟩ : Context Bool) id t hup
  refine ⟨⟨deferredOf q, ((appliedOf q).foldl applyEvent elems).Set id ⟨t, some false⟩, true⟩,
    ?_, rfl, rfl, syncMap.Get_Set_same _ _ _⟩
  simp only [frame, drain_eq q elems hlen, probe, hb]

/-- A frame of the probing callback whose queue holds no event for a stored
button with its flag down: the callback sees `false` and nothing is emitted. -/
theorem frame_probe_quiet (id : ID) (t : String) (sess : Session Bool)
    (hdecl : sess.elems.Get id = some ⟨t, some false⟩) (hlen : sess.queue.length ≤ queueCap)
    (hnone : sess.queue.find? (fun e => decide (e.ID = id)) = none) :
    ∃ s1 : Session Bool,
      frame (probe id) sess = .ok ([], s1) ∧ s1.state = false ∧
      s1.queue = deferredOf sess.queue ∧ s1.elems.Get id = some ⟨t, some false⟩ := by
  obtain ⟨q, elems, x⟩ := sess
  simp only at hdecl hlen hnone
  have hup : ((appliedOf q).foldl applyEvent elems).Get id = some ⟨t, some false⟩ := by
    rw [applied_fold_Get, drained_Get, hnone]
    exact hdecl
  have hb := button_flag_false
    (⟨[], x, (appliedOf q).foldl applyEvent elems⟩ : Context Bool) id t hup
  refine ⟨⟨deferredOf q, (appliedOf q).foldl applyEvent elems, false⟩, ?_, rfl, rfl, hup⟩
  simp only [frame, drain_eq q elems hlen, probe, hb]

/-- C4 (per-frame event dedupe): for a stored button, when the queue of at most
100 events holds exactly two events for `id`, both "clicked", at the start of
frame F, the drain of frame F applies the first and puts the second back on the
queue, the drain of frame F+1 applies the second, and a callback that calls
`button(id)` once per frame sees `true` in frame F, `true` in frame F+1 and `false`
in frame F+2; after each callback the stored flag is down, so a second call in
the same frame would return `false`. -/
theorem click_dedupe (id : ID) (t : String) (b x : Bool) (elems : Store) (L : List event)
    (hdecl : elems.Get id = some ⟨t, some b⟩) (hlen : L.length ≤ 100)
    (htwo : L.filter (fun e => decide (e.ID = id)) = [⟨id, "clicked"⟩, ⟨id, "clicked"⟩]) :
    ∃ s1 s2 s3 : Session Bool,
      frame (probe id) ⟨L, elems, x⟩ = .ok ([], s1) ∧ s1.state = true ∧
        s1.queue = deferredOf L ∧
        s1.queue.filter (fun e => decide (e.ID = id)) = [⟨id, "clicked"⟩] ∧
        s1.elems.Get id = some ⟨t, some false⟩ ∧
      frame (probe id) s1 = .ok ([], s2) ∧ s2.state = true ∧
        s2.queue = deferredOf (deferredOf L) ∧
        s2.queue.filter (fun e => decide (e.ID = id)) = [] ∧
        s2.elems.Get id = some ⟨t, some false⟩ ∧
      frame (probe id) s2 = .ok ([], s3) ∧ s3.state = false ∧
        s3.elems.Get id = some ⟨t, some false⟩ := by
  have hf1 : L.find? (fun e => decide (e.ID = id)) = some ⟨id, "clicked"⟩ := by
    rw [find_eq_head_filter, htwo]; rfl
  have hd1 : (deferredOf L).filter (fun e => decide (e.ID = id)) = [⟨id, "clicked"⟩] := by
    rw [deferredOf_filter, htwo]; rfl
  have hd2 : (deferredOf (deferredOf L)).filter (fun e => decide (e.ID = id)) = [] := by
    rw [deferredOf_filter, hd1]; rfl
  have hl1 : (deferredOf L).length ≤ queueCap := (deferredOf_sublist L).length_le.trans hlen
  have hl2 : (deferredOf (deferredOf L)).length ≤ queueCap :=
    (deferredOf_sublist _).length_le.trans hl1
  obtain ⟨s1, h1, h1s, h1q, h1e⟩ :=
    frame_probe_clicked id t b ⟨L, elems, x⟩ hdecl hlen hf1
  have hf2 : s1.queue.find? (fun e => decide (e.ID = id)) = some ⟨id, "clicked"⟩ := by
    rw [find_eq_head_filter, h1q, hd1]; rfl
  obtain ⟨s2, h2, h2s, h2q, h2e⟩ :=
    frame_probe_clicked id t false s1 h1e (by rw [h1q]; exact hl1) hf2
  have hf3 : s2.queue.find? (fun e => decide (e.ID = id)) = none := by
    rw [find_eq_head_filter, h2q, h1q, hd2]; rfl
  obtain ⟨s3, h3, h3s, _, h3e⟩ :=
    frame_probe_quiet id t s2 h2e (by rw [h2q, h1q]; exact hl2) hf3
  exact ⟨s1, s2, s3, h1, h1s, h1q, by rw [h1q]; exact hd1, h1e,
    h2, h2s, by rw [h2q, h1q], by rw [h2q, h1q]; exact hd2, h2e, h3, h3s, h3e⟩

/-- C4 on a double click of "Increment" with a click of "Decrement" in between. -/
theorem click_dedupe_witness :
    ((syncMap.empty : Store).Set "Increment" ⟨"Increment", some false⟩).Get "Increment"
      = some ⟨"Increment", some false⟩ ∧
    ∃ s1 s2 s3 : Session Bool,
      frame (probe "Increment")
        ⟨[⟨"Increment", "clicked"⟩, ⟨"Decrement", "clicked"⟩, ⟨"Increment", "clicked"⟩],
          (syncMap.empty : Store).Set "Increment" ⟨"Increment", some false⟩, false⟩
        = .ok ([], s1) ∧ s1.state = true ∧
        s1.queue = deferredOf
          [⟨"Increment", "clicked"⟩, ⟨"Decrement", "clicked"⟩, ⟨"Increment", "clicked"⟩] ∧
        s1.queue.filter (fun e => decide (e.ID = "Increment")) = [⟨"Increment", "clicked"⟩] ∧
        s1.elems.Get "Increment" = some ⟨"Increment", some false⟩ ∧
      frame (probe "Increment") s1 = .ok ([], s2) ∧ s2.state = true ∧
        s2.queue = deferredOf (deferredOf
          [⟨"Increment", "clicked"⟩, ⟨"Decrement", "clicked"⟩, ⟨"Increment", "clicked"⟩]) ∧
        s2.queue.filter (fun e => decide (e.ID = "Increment")) = [] ∧
        s2.elems.Get "Increment" = some ⟨"Increment", some false⟩ ∧
      frame (probe "Increment") s2 = .ok ([], s3) ∧ s3.state = false ∧
        s3.elems.Get "Increment" = some ⟨"Increment", some false⟩ :=
  ⟨rfl,
    click_dedupe "Increment" "Increment" false false
      ((syncMap.empty : Store).Set "Increment" ⟨"Increment", some false⟩)
      [⟨"Increment", "clicked"⟩, ⟨"Decrement", "clicked"⟩, ⟨"Increment", "clicked"⟩]
      rfl (by decide) (by decide)⟩

/-! ## The example application, frame by frame -/

/-- C6 as stated fails: after frame 1 of the example application on an empty
store, with one "clicked" event for "Increment" queued, frame 2 emits no command
at all (so no `REPLACE` for "count-text"): `app` declares the text before it
polls the buttons. -/
theorem counter_frame2_emits_nothing :
    ∃ (s1 s2 : Session state) (q : List event),
      frame app ⟨[], syncMap.empty, ⟨0⟩⟩
        = .ok ([⟨"count-text", textHtml "count-text" "0", "ADD"⟩,
                ⟨"Increment", buttonHtml "Increment", "ADD"⟩,
                ⟨"Decrement", buttonHtml "Decrement", "ADD"⟩], s1) ∧
      send s1.queue ⟨"Increment", "clicked"⟩ = .ok q ∧
      frame app ⟨q, s1.elems, s1.state⟩ = .ok ([], s2) :=
  ⟨_, _, _, rfl, rfl, rfl⟩

/-- C6, amended: frame 1 (no events) emits `ADD` for "count-text" with content
"0", then `ADD` for "Increment", then `ADD` for "Decrement"; with one "clicked"
event for "Increment" queued, frame 2 emits nothing and leaves `count = 1`;
frame 3 (no further event) emits exactly `REPLACE` for "count-text" with content
"1". -/
theorem counter_scenario :
    ∃ (s1 s2 s3 : Session state) (q : List event),
      frame app ⟨[], syncMap.empty, ⟨0⟩⟩
        = .ok ([⟨"count-text", textHtml "count-text" "0", "ADD"⟩,
                ⟨"Increment", buttonHtml "Increment", "ADD"⟩,
                ⟨"Decrement", buttonHtml "Decrement", "ADD"⟩], s1) ∧
      s1.state = ⟨0⟩ ∧
      send s1.queue ⟨"Increment", "clicked"⟩ = .ok q ∧
      frame app ⟨q, s1.elems, s1.state⟩ = .ok ([], s2) ∧
      s2.state = ⟨1⟩ ∧ s2.queue = [] ∧
      frame app s2 = .ok ([⟨"count-text", textHtml "count-text" "1", "REPLACE"⟩], s3) ∧
      s3.state = ⟨1⟩ :=
  ⟨_, _, _, _, rfl, rfl, rfl, rfl, rfl, rfl, rfl, rfl⟩

/-! ## Frame pacing -/

/-- C8 fails on the code: when the loop is entered at clock 0 and the work of
every frame takes no time, the first two frames both start at 50 ms, and so do
the third and fourth at 100 ms: `last` is set to the reading taken before the
sleep, so the sleep itself counts as elapsed time in the next iteration. -/
theorem pacing_frames_start_in_pairs :
    loopStarts 0 [0, 0, 0, 0] = [50000000, 50000000, 100000000, 100000000] ∧
    refreshInterval = 50000000 := by
  decide

/-! ## Events for ids that are not stored buttons -/

/-- C5 fails on the code: on an empty store, a frame whose drain step receives a
"clicked" event for the undeclared id "x" and whose callback then declares
`text("x", "a")` emits `REPLACE` for "x" and never an `ADD`; with `button("x")`
instead it emits nothing at all. -/
theorem replace_without_add :
    (∃ elems : Store,
      session [⟨[⟨"x", "clicked"⟩], [Decl.text "x" "a"]⟩] syncMap.empty
        = .ok ([⟨"x", textHtml "x" "a", "REPLACE"⟩], elems)) ∧
    (∃ elems : Store,
      session [⟨[⟨"x", "clicked"⟩], [Decl.button "x"]⟩] syncMap.empty = .ok ([], elems)) :=
  ⟨⟨_, rfl⟩, ⟨_, rfl⟩⟩

/-- C9 fails on the code: the text element "t" is stored with `custom = nil`
when first declared; a later frame whose drain step receives a "clicked" event
for "t" leaves it stored with `custom = true`, although "t" is only ever used
with `text`. -/
theorem clicked_text_changes_variant :
    ∃ (c1 c2 : List command) (e1 e2 : Store),
      session [⟨[], [Decl.text "t" "a"]⟩] syncMap.empty = .ok (c1, e1) ∧
      e1.Get "t" = some ⟨"a", none⟩ ∧
      session [⟨[], [Decl.text "t" "a"]⟩, ⟨[⟨"t", "clicked"⟩], [Decl.text "t" "a"]⟩]
        syncMap.empty = .ok (c2, e2) ∧
      e2.Get "t" = some ⟨"a", some true⟩ :=
  ⟨_, _, _, _, rfl, rfl, rfl, rfl⟩

/-! ## The type assertion in `button` -/

theorem customIsBool_empty (id : ID) : customIsBool id syncMap.empty := by
  intro st h
  simp [syncMap.Get, syncMap.empty] at h

theorem customIsBool_applyEvent (id : ID) (elems : Store) (e : event)
    (h : customIsBool id elems) : customIsBool id (applyEvent elems e) := by
  intro st hst
  by_cases hid : e.ID = id
  · by_cases hc : e.Event = "clicked"
    · subst hid
      simp only [applyEvent, hc, if_true, syncMap.Get_Set_same, Option.some.injEq] at hst
      exact ⟨true, by rw [← hst]⟩
    · rw [applyEvent_Get_not_clicked _ _ _ hc] at hst
      exact h st hst
  · rw [applyEvent_Get_other _ _ _ hid] at hst
    exact h st hst

theorem customIsBool_eventsLoop (id : ID) (L : List event) :
    ∀ (updatedIDs : List ID) (notProcessed : List event) (elems : Store),
      customIsBool id elems →
      customIsBool id (eventsLoop L updatedIDs notProcessed elems).2 := by
  induction L with
  | nil => intro _ _ elems h; exact h
  | cons e rest ih =>
    intro upd np elems h
    by_cases he : e.ID ∈ upd
    · simp only [eventsLoop, he, if_true]
      exact ih upd _ elems h
    · simp only [eventsLoop, he, if_false]
      exact ih _ np _ (customIsBool_applyEvent id elems e h)

theorem customIsBool_drained (id : ID) (L : List event) (elems : Store)
    (h : customIsBool id elems) : customIsBool id (drained L elems) :=
  customIsBool_eventsLoop id L [] [] elems h

/-- Where the assertion succeeds, `button` returns normally. -/
theorem button_ok_of_customIsBool {S : Type} (c : Context S) (id : ID)
    (h : customIsBool id c.elems) : ∃ r, c.button id = .ok r := by
  cases hg : c.elems.Get id with
  | none => exact ⟨_, button_absent c id hg⟩
  | some st =>
    obtain ⟨b, hb⟩ := h st hg
    obtain ⟨t, cu⟩ := st
    simp only at hb
    subst hb
    cases b with
    | true => exact ⟨_, button_flag_true c id t hg⟩
    | false => exact ⟨_, button_flag_false c id t hg⟩

/-- A call other than `text(id, _)` keeps a boolean in the `custom` field of `id`. -/
theorem customIsBool_run (id : ID) (d : Decl) (elems : Store) (c1 : Context Unit)
    (hd : ∀ content, d ≠ Decl.text id content) (h : customIsBool id elems)
    (hrun : d.run (⟨[], (), elems⟩ : Context Unit) = .ok c1) : customIsBool id c1.elems := by
  cases d with
  | text j content =>
    have hj : id ≠ j := fun hc => hd content (by rw [hc])
    simp only [Decl.run, Except.ok.injEq] at hrun
    subst hrun
    intro st hst
    have hget : ((⟨[], (), elems⟩ : Context Unit).text j content).elems.Get id = elems.Get id := by
      simp only [Context.text]
      split
      · exact syncMap.Get_Set_other _ _ _ _ hj
      · split
        · exact syncMap.Get_Set_other _ _ _ _ hj
        · rfl
    rw [hget] at hst
    exact h st hst
  | button j =>
    simp only [Decl.run] at hrun
    cases hg : elems.Get j with
    | none =>
      rw [button_absent _ j hg] at hrun
      simp only [Except.ok.injEq] at hrun
      subst hrun
      intro st hst
      by_cases hj : id = j
      · subst hj
        simp only [syncMap.Get_Set_same, Option.some.injEq] at hst
        exact ⟨false, by rw [← hst]⟩
      · rw [syncMap.Get_Set_other _ _ _ _ hj] at hst
        exact h st hst
    | some st0 =>
      obtain ⟨t, cu⟩ := st0
      cases cu with
      | none => simp [Context.button, hg] at hrun
      | some b =>
        cases b with
        | false =>
          rw [button_flag_false _ j t hg] at hrun
          simp only [Except.ok.injEq] at hrun
          subst hrun
          exact h
        | true =>
          rw [button_flag_true _ j t hg] at hrun
          simp only [Except.ok.injEq] at hrun
          subst hrun
          intro st hst
          by_cases hj : id = j
          · subst hj
            simp only [syncMap.Get_Set_same, Option.some.injEq] at hst
            exact ⟨false, by rw [← hst]⟩
          · rw [syncMap.Get_Set_other _ _ _ _ hj] at hst
            exact h st hst

theorem customIsBool_render (id : ID) (ds : List Decl) :
    ∀ elems : Store, (∀ content, Decl.text id content ∉ ds) → customIsBool id elems →
      (∀ s ∈ renderStores ds elems, customIsBool id s) ∧
      (∀ s, renderEnd ds elems = some s → customIsBool id s) := by
  induction ds with
  | nil =>
    intro elems _ h
    refine ⟨?_, ?_⟩
    · intro s hs
      simp only [renderStores, List.mem_singleton] at hs
      exact hs ▸ h
    · intro s hs
      simp only [renderEnd, Option.some.injEq] at hs
      exact hs ▸ h
  | cons d rest ih =>
    intro elems hno h
    have hd : ∀ content, d ≠ Decl.text id content :=
      fun content hc => hno content (hc ▸ List.mem_cons_self _ _)
    have hrest : ∀ content, Decl.text id content ∉ rest :=
      fun content hc => hno content (List.mem_cons_of_mem _ hc)
    cases hrun : d.run (⟨[], (), elems⟩ : Context Unit) with
    | error f =>
      refine ⟨?_, ?_⟩
      · intro s hs
        simp only [renderStores, hrun, List.mem_singleton] at hs
        exact hs ▸ h
      · intro s hs
        simp [renderEnd, hrun] at hs
    | ok c1 =>
      have h1 := customIsBool_run id d elems c1 hd h hrun
      obtain ⟨ihs, ihe⟩ := ih c1.elems hrest h1
      refine ⟨?_, ?_⟩
      · intro s hs
        simp only [renderStores, hrun, List.mem_cons] at hs
        rcases hs with hs | hs
        · exact hs ▸ h
        · exact ihs s hs
      · intro s hs
        simp only [renderEnd, hrun] at hs
        exact ihe s hs

theorem customIsBool_sessionStores (id : ID) (fs : List FrameInput) :
    ∀ elems : Store, (∀ f ∈ fs, ∀ content, Decl.text id content ∉ f.decls) →
      customIsBool id elems → ∀ s ∈ sessionStores fs elems, customIsBool id s := by
  induction fs with
  | nil =>
    intro elems _ h s hs
    simp only [sessionStores, List.mem_singleton] at hs
    exact hs ▸ h
  | cons f rest ih =>
    intro elems hno h s hs
    have hf := hno f (List.mem_cons_self _ _)
    have hrest : ∀ g ∈ rest, ∀ content, Decl.text id content ∉ g.decls :=
      fun g hg => hno g (List.mem_cons_of_mem _ hg)
    obtain ⟨hrs, hre⟩ := customIsBool_render id f.decls (drained f.events elems) hf
      (customIsBool_drained id f.events elems h)
    cases hend : renderEnd f.decls (drained f.events elems) with
    | none =>
      simp only [sessionStores, hend, List.mem_cons] at hs
      rcases hs with hs | hs
      · exact hs ▸ h
      · exact hrs s hs
    | some elems1 =>
      simp only [sessionStores, hend, List.mem_cons, List.mem_append] at hs
      rcases hs with (hs | hs) | hs
      · exact hs ▸ h
      · exact hrs s hs
      · exact ih elems1 hrest (hre elems1 hend) s hs

/-- C10 (`button` never hits its failing type assertion on button-only ids): in
a session that starts with an empty store, whose frames each drain arbitrary
events and then make arbitrary calls, none of which is `text(id, _)`, every store
on which a call is executed holds a boolean in the `custom` field of `id` if it
holds `id` at all, and `button(id)` returns normally on it. -/
theorem button_never_panics (id : ID) (fs : List FrameInput)
    (hno : ∀ f ∈ fs, ∀ content, Decl.text id content ∉ f.decls) :
    ∀ elems ∈ sessionStores fs syncMap.empty,
      (∀ st, elems.Get id = some st → ∃ b : Bool, st.custom = some b) ∧
      ∀ cmds : List command, ∃ r, (⟨cmds, (), elems⟩ : Context Unit).button id = .ok r := by
  intro elems hmem
  have h := customIsBool_sessionStores id fs syncMap.empty hno (customIsBool_empty id) elems hmem
  exact ⟨h, fun cmds => button_ok_of_customIsBool (⟨cmds, (), elems⟩ : Context Unit) id h⟩

/-- C10 on a session where a click for "b" arrives before "b" is declared. -/
theorem button_never_panics_witness :
    (∀ f ∈ ([⟨[⟨"b", "clicked"⟩], [Decl.button "b", Decl.text "t" "x"]⟩,
            ⟨[⟨"t", "clicked"⟩, ⟨"b", "clicked"⟩], [Decl.button "b", Decl.button "b"]⟩] :
            List FrameInput),
        ∀ content, Decl.text "b" content ∉ f.decls) ∧
    drained [⟨"b", "clicked"⟩] syncMap.empty ∈
      sessionStores
        [⟨[⟨"b", "clicked"⟩], [Decl.button "b", Decl.text "t" "x"]⟩,
         ⟨[⟨"t", "clicked"⟩, ⟨"b", "clicked"⟩], [Decl.button "b", Decl.button "b"]⟩]
        syncMap.empty ∧
    ∃ r, (⟨[], (), drained [⟨"b", "clicked"⟩] syncMap.empty⟩ : Context Unit).button "b" = .ok r :=
  have hno : ∀ f ∈ ([⟨[⟨"b", "clicked"⟩], [Decl.button "b", Decl.text "t" "x"]⟩,
            ⟨[⟨"t", "clicked"⟩, ⟨"b", "clicked"⟩], [Decl.button "b", Decl.button "b"]⟩] :
            List FrameInput),
        ∀ content, Decl.text "b" content ∉ f.decls := by
    intro f hf content
    simp only [List.mem_cons, List.mem_singleton, List.not_mem_nil, or_false] at hf
    rcases hf with rfl | rfl <;> simp
  have hmem : drained [⟨"b", "clicked"⟩] syncMap.empty ∈
      sessionStores
        [⟨[⟨"b", "clicked"⟩], [Decl.button "b", Decl.text "t" "x"]⟩,
         ⟨[⟨"t", "clicked"⟩, ⟨"b", "clicked"⟩], [Decl.button "b", Decl.button "b"]⟩]
        syncMap.empty := List.Mem.tail _ (List.Mem.head _)
  ⟨hno, hmem, (button_never_panics "b" _ hno _ hmem).2 []⟩

/-! ## Frame pacing, in general -/

/-- Whatever the clock reads when the loop is entered, the second frame
starts as soon as the work of the first is done: when that work takes `w`
nanoseconds the two starts are `w` apart, however small `w` is. -/
theorem pacing_second_start (t0 : Int) (w : Nat) :
    loopStarts t0 [w, 0] = [t0 + 50000000, t0 + 50000000 + w] := by
  have h1 : pace t0 t0 = (t0 + 50000000, t0) := by
    simp [pace, timeSub, sleep, wrapInt64, refreshInterval]
  have h2 : pace (t0 + 50000000 + w) t0 = (t0 + 50000000 + w, t0 + 50000000 + w) := by
    have hw : (0 : Int) ≤ w := Int.ofNat_nonneg w
    simp only [pace, timeSub, refreshInterval]
    split_ifs <;> first | rfl | omega
  simp only [loopStarts, frameStarts, h1, h2]

end Imweb
